import Mathlib

/-!
Shallow embedding of the G1 concurrent-mark bitmap, collection-set candidate
tracking and full-GC compaction core (hotspot share/gc/g1), together with
proofs of the specification's testable properties.

All definitions are translated from the C++ source files under
src/src/hotspot/share/gc/g1 unless the doc comment says otherwise; machine
unsigned arithmetic is modelled by Nat with truncated subtraction, which
agrees with 32-bit unsigned subtraction in every comparison the code performs
(the code only compares differences with small constants, and a wrapped
difference is never equal to such a constant for realistic region counts).
Region heap addresses are HeapWord indices; the G1 constant
LogMinObjAlignment is 0 (MinObjAlignment is one word), so the
address-to-bit-offset conversion addr_to_offset degenerates to a subtraction
of the region bottom, and offset_to_addr to an addition.
-/

/-- `G1CollectionGroup::GROUP_SIZE` (g1CollectionGroup.hpp line 106): limit on
the number of regions in a collection group, with an exception for the first
group built from marking. -/
def GROUP_SIZE : Nat := 5

/-- The region-grouping loop of
`G1CollectionSetCandidates::set_candidates_from_marking`
(g1CollectionSetCandidates.cpp lines 308-327), abstracted over the regions.
Arguments: the remaining candidate regions, the current `group_limit`, and the
regions already added to the `current` group.  Each emitted list is one group
appended to `_candidate_groups`, in order; the trailing append at line 327 is
the base case.  When `num_added_to_group == group_limit` the current group is
appended, the limit becomes `GROUP_SIZE`, and the region opens a new group. -/
def markingGroupsLoop : List Nat → Nat → List Nat → List (List Nat)
  | [], _, cur => [cur]
  | r :: rest, limit, cur =>
    if cur.length = limit then
      cur :: markingGroupsLoop rest GROUP_SIZE [r]
    else
      markingGroupsLoop rest limit (cur ++ [r])

/-- `G1CollectionSetCandidates::set_candidates_from_marking`, group structure
only: with `num_infos == 0` the function returns without creating groups
(g1CollectionSetCandidates.cpp line 288); otherwise it partitions the
candidate regions into the groups produced by the loop, starting with
`group_limit = calc_min_old_cset_length(num_infos)` (passed here as `M`, an
external policy input) and an empty current group. -/
def markingGroups (M : Nat) (infos : List Nat) : List (List Nat) :=
  if infos.isEmpty then [] else markingGroupsLoop infos M []

theorem markingGroupsLoop_join (l : List Nat) (limit : Nat) (cur : List Nat) :
    (markingGroupsLoop l limit cur).flatten = cur ++ l := by
  induction l generalizing limit cur with
  | nil => simp [markingGroupsLoop]
  | cons r rest ih =>
    by_cases h : cur.length = limit
    · simp [markingGroupsLoop, h, ih]
    · simp [markingGroupsLoop, h, ih]

theorem markingGroupsLoop_head (l : List Nat) (limit : Nat) (cur : List Nat)
    (h : cur.length ≤ limit) :
    (markingGroupsLoop l limit cur).head?.map List.length
      = some (min limit (cur.length + l.length)) := by
  induction l generalizing cur with
  | nil =>
    simp [markingGroupsLoop, Nat.min_eq_right h]
  | cons r rest ih =>
    by_cases hc : cur.length = limit
    · have : min limit (cur.length + (rest.length + 1)) = limit := by omega
      simp [markingGroupsLoop, hc, this]
    · have hlt : cur.length < limit := Nat.lt_of_le_of_ne h hc
      have := ih (cur ++ [r]) (by simpa using hlt)
      simpa [markingGroupsLoop, hc, Nat.add_assoc, Nat.add_comm, Nat.add_left_comm] using this

theorem markingGroupsLoop_pos (l : List Nat) (limit : Nat) (cur : List Nat)
    (h : 1 ≤ cur.length) :
    ∀ g ∈ markingGroupsLoop l limit cur, 1 ≤ g.length := by
  induction l generalizing limit cur with
  | nil =>
    intro g hg
    simp [markingGroupsLoop] at hg
    simpa [hg] using h
  | cons r rest ih =>
    intro g hg
    by_cases hc : cur.length = limit
    · simp [markingGroupsLoop, hc] at hg
      rcases hg with hg | hg
      · simpa [hg] using h
      · exact ih GROUP_SIZE [r] (by simp) g hg
    · simp only [markingGroupsLoop, hc, if_false] at hg
      exact ih limit (cur ++ [r]) (by simp) g hg

theorem markingGroupsLoop_all_le_five (l : List Nat) (cur : List Nat)
    (h : cur.length ≤ GROUP_SIZE) :
    ∀ g ∈ markingGroupsLoop l GROUP_SIZE cur, g.length ≤ GROUP_SIZE := by
  induction l generalizing cur with
  | nil =>
    intro g hg
    simp [markingGroupsLoop] at hg
    simpa [hg] using h
  | cons r rest ih =>
    intro g hg
    by_cases hc : cur.length = GROUP_SIZE
    · simp [markingGroupsLoop, hc] at hg
      rcases hg with hg | hg
      · simp [hg, hc]
      · exact ih [r] (by simp [GROUP_SIZE]) g hg
    · simp only [markingGroupsLoop, hc, if_false] at hg
      have hlt : cur.length < GROUP_SIZE := Nat.lt_of_le_of_ne h hc
      exact ih (cur ++ [r]) (by simpa using hlt) g hg

theorem markingGroupsLoop_tail_le (l : List Nat) (limit : Nat) (cur : List Nat)
    (h : cur.length ≤ limit) :
    ∀ g ∈ (markingGroupsLoop l limit cur).tail, g.length ≤ GROUP_SIZE := by
  induction l generalizing limit cur with
  | nil =>
    intro g hg
    simp [markingGroupsLoop] at hg
  | cons r rest ih =>
    intro g hg
    by_cases hc : cur.length = limit
    · simp only [markingGroupsLoop, hc, if_pos rfl, List.tail_cons] at hg
      exact markingGroupsLoop_all_le_five rest [r] (by simp [GROUP_SIZE]) g hg
    · simp only [markingGroupsLoop, hc, if_false] at hg
      have hlt : cur.length < limit := Nat.lt_of_le_of_ne h hc
      exact ih limit (cur ++ [r]) (by simpa using hlt) g hg

/-- C1. For every call to `set_candidates_from_marking` with a nonempty
candidate array of `N` regions and `M = calc_min_old_cset_length(N) > 0`:
the first appended group has exactly `min M N` regions, every subsequent
group has at most `GROUP_SIZE` regions, no appended group is empty, the group
sizes sum to `N`, and the groups partition the input regions in order. -/
theorem c1_marking_group_sizes (M : Nat) (infos : List Nat)
    (hN : infos ≠ []) (hM : 0 < M) :
    (markingGroups M infos).head?.map List.length
        = some (min M infos.length) ∧
    (∀ g ∈ (markingGroups M infos).tail, g.length ≤ GROUP_SIZE) ∧
    (∀ g ∈ markingGroups M infos, 1 ≤ g.length) ∧
    ((markingGroups M infos).map List.length).sum = infos.length ∧
    (markingGroups M infos).flatten = infos := by
  have hne : infos.isEmpty = false := by
    cases infos with
    | nil => exact absurd rfl hN
    | cons a l => simp
  have hjoin : (markingGroups M infos).flatten = infos := by
    simp [markingGroups, hne, markingGroupsLoop_join]
  refine ⟨?_, ?_, ?_, ?_, hjoin⟩
  · have := markingGroupsLoop_head infos M [] (by simp)
    simpa [markingGroups, hne] using this
  · have := markingGroupsLoop_tail_le infos M [] (by simp)
    simpa [markingGroups, hne] using this
  · cases infos with
    | nil => exact absurd rfl hN
    | cons r rest =>
      intro g hg
      simp only [markingGroups, hne] at hg
      have h0 : ¬ (([] : List Nat).length = M) := by
        simp
        omega
      simp only [markingGroupsLoop, h0, if_false] at hg
      exact markingGroupsLoop_pos rest M [r] (by simp) g (by simpa using hg)
  · have : ((markingGroups M infos).map List.length).sum
        = (markingGroups M infos).flatten.length := by
      simp [List.length_flatten]
    rw [this, hjoin]

/-- Witness for C1 at `M = 3`, seven candidate regions: the groups are
`[[10, 11, 12], [13, 14, 15, 16]]`. -/
theorem c1_marking_group_sizes_witness :
    ([10, 11, 12, 13, 14, 15, 16] : List Nat) ≠ [] ∧ 0 < 3 ∧
    ((markingGroups 3 [10, 11, 12, 13, 14, 15, 16]).head?.map List.length
        = some (min 3 7) ∧
    (∀ g ∈ (markingGroups 3 [10, 11, 12, 13, 14, 15, 16]).tail,
        g.length ≤ GROUP_SIZE) ∧
    (∀ g ∈ markingGroups 3 [10, 11, 12, 13, 14, 15, 16], 1 ≤ g.length) ∧
    ((markingGroups 3 [10, 11, 12, 13, 14, 15, 16]).map List.length).sum = 7 ∧
    (markingGroups 3 [10, 11, 12, 13, 14, 15, 16]).flatten
        = [10, 11, 12, 13, 14, 15, 16]) :=
  ⟨by decide, by decide,
    c1_marking_group_sizes 3 [10, 11, 12, 13, 14, 15, 16] (by decide) (by decide)⟩

/-- A collection group as seen by `G1CollectionCandidateGroupsList`: the
`GrowableArray` stores `G1CollectionGroup*` pointers, so a group is
identified by its address (first component) and contributes
`G1CollectionGroup::length()` regions (second component). -/
abbrev CollectionGroup : Type := Nat × Nat

/-- The number of regions in a group, `G1CollectionGroup::length()`. -/
def CollectionGroup.len (g : CollectionGroup) : Nat := g.2

/-- `G1CollectionCandidateGroupsList` (g1CollectionSetCandidates.hpp lines
59-102): a growable array of group pointers plus the running region count
`_num_regions`. -/
structure GroupsList where
  groups : List CollectionGroup
  numRegions : Nat

/-- The initial list built by the constructor
`G1CollectionCandidateGroupsList()` : `_groups(8, mtGC), _num_regions(0)`. -/
def GroupsList.empty : GroupsList := ⟨[], 0⟩

/-- `G1CollectionCandidateGroupsList::append` (g1CollectionSetCandidates.cpp
lines 138-143): appends the group and adds its length to `_num_regions`; the
asserts (nonempty group, not already present) become reachability
preconditions. -/
def GroupsList.append (gl : GroupsList) (g : CollectionGroup) : GroupsList :=
  ⟨gl.groups ++ [g], gl.numRegions + g.len⟩

/-- `G1CollectionCandidateGroupsList::clear` (lines 149-157): deletes every
group, empties the array and zeroes `_num_regions`. -/
def GroupsList.clear (_gl : GroupsList) : GroupsList := ⟨[], 0⟩

/-- `G1CollectionCandidateGroupsList::abandon` (lines 159-167): like `clear`
but first detaches each group's card set; the list-level state change is the
same. -/
def GroupsList.abandon (_gl : GroupsList) : GroupsList := ⟨[], 0⟩

/-- The groups lists reachable by any sequence of `append` (under the
asserted preconditions: nonempty group, not already in the list), `clear` and
`abandon`, starting from a fresh list. -/
inductive GroupsList.Reachable : GroupsList → Prop
  | empty : GroupsList.Reachable GroupsList.empty
  | append {gl : GroupsList} (g : CollectionGroup) :
      GroupsList.Reachable gl → 1 ≤ g.len → g ∉ gl.groups →
      GroupsList.Reachable (gl.append g)
  | clear {gl : GroupsList} :
      GroupsList.Reachable gl → GroupsList.Reachable gl.clear
  | abandon {gl : GroupsList} :
      GroupsList.Reachable gl → GroupsList.Reachable gl.abandon

/-- C10. For every reachable `G1CollectionCandidateGroupsList`,
`num_regions()` equals the sum of `length()` over the stored groups; `append`
increases `num_regions()` by exactly the group's length, and `clear` and
`abandon` leave the list empty with `num_regions() == 0`. -/
theorem c10_num_regions_invariant (gl : GroupsList)
    (h : GroupsList.Reachable gl) :
    gl.numRegions = (gl.groups.map CollectionGroup.len).sum ∧
    (∀ g : CollectionGroup, (gl.append g).numRegions = gl.numRegions + g.len) ∧
    gl.clear.groups = [] ∧ gl.clear.numRegions = 0 ∧
    gl.abandon.groups = [] ∧ gl.abandon.numRegions = 0 := by
  refine ⟨?_, fun g => rfl, rfl, rfl, rfl, rfl⟩
  induction h with
  | empty => rfl
  | append g _hr _hlen _hmem ih =>
    simp [GroupsList.append, ih]
  | clear _hr _ih => rfl
  | abandon _hr _ih => rfl

/-- Witness for C10 on the list obtained by appending two groups of sizes 3
and 5 to a fresh list. -/
theorem c10_num_regions_invariant_witness :
    ((GroupsList.empty.append (1, 3)).append (2, 5)).numRegions
        = ((((GroupsList.empty.append (1, 3)).append (2, 5)).groups.map
            CollectionGroup.len).sum) ∧
    (∀ g : CollectionGroup,
      (((GroupsList.empty.append (1, 3)).append (2, 5)).append g).numRegions
        = ((GroupsList.empty.append (1, 3)).append (2, 5)).numRegions + g.len) ∧
    ((GroupsList.empty.append (1, 3)).append (2, 5)).clear.groups = [] ∧
    ((GroupsList.empty.append (1, 3)).append (2, 5)).clear.numRegions = 0 ∧
    ((GroupsList.empty.append (1, 3)).append (2, 5)).abandon.groups = [] ∧
    ((GroupsList.empty.append (1, 3)).append (2, 5)).abandon.numRegions = 0 :=
  c10_num_regions_invariant ((GroupsList.empty.append (1, 3)).append (2, 5))
    ((GroupsList.Reachable.empty.append (1, 3) (by decide) (by decide)).append
      (2, 5) (by decide) (by decide))

/-- `CandidateOrigin` (g1CollectionSetCandidates.hpp lines 221-226): the
per-region origin tag stored in `_contains_map`. -/
inductive CandidateOrigin where
  | Invalid
  | Marking
  | Retained
  | Verify
deriving DecidableEq

/-- `G1CollectionSetCandidates` (g1CollectionSetCandidates.hpp lines 219-292):
the marking candidate groups (each group reduced to its member regions, in
order), the retained-regions list (reduced to its regions, in insertion
order), the authoritative origin-tag array `_contains_map` and
`_max_regions`. -/
structure CSetCandidates where
  maxRegions : Nat
  containsMap : Nat → CandidateOrigin
  candidateGroups : List (List Nat)
  retainedRegions : List Nat

/-- `G1CollectionSetCandidates::initialize` followed by the constructor state
(g1CollectionSetCandidates.cpp lines 243-266): records `max_regions`,
allocates the origin map and clears everything. -/
def CSetCandidates.init (max : Nat) : CSetCandidates :=
  ⟨max, fun _ => CandidateOrigin.Invalid, [], []⟩

/-- `G1CollectionSetCandidates::contains` (g1CollectionSetCandidates.cpp
lines 440-444): the region's origin tag is not `Invalid`. -/
def CSetCandidates.contains (s : CSetCandidates) (r : Nat) : Bool :=
  s.containsMap r != CandidateOrigin.Invalid

/-- The regions held by the marking candidate groups, in group order. -/
def CSetCandidates.markingRegions (s : CSetCandidates) : List Nat :=
  s.candidateGroups.flatten

/-- `G1CollectionSetCandidates::set_candidates_from_marking`
(g1CollectionSetCandidates.cpp lines 286-335): returns unchanged when no
region was selected; otherwise tags every candidate region `Marking` in
`_contains_map` and appends the groups built by the grouping loop.  `M` is
the policy result `calc_min_old_cset_length(num_infos)`. -/
def CSetCandidates.setFromMarking (s : CSetCandidates) (M : Nat)
    (infos : List Nat) : CSetCandidates :=
  if infos.isEmpty then s
  else
    ⟨s.maxRegions,
     infos.foldl (fun m r => Function.update m r CandidateOrigin.Marking)
       s.containsMap,
     s.candidateGroups ++ markingGroups M infos,
     s.retainedRegions⟩

/-- `G1CollectionSetCandidates::add_retained_region_unsorted`
(g1CollectionSetCandidates.cpp lines 345-349): tags the region `Retained`
and appends it to the retained list. -/
def CSetCandidates.addRetained (s : CSetCandidates) (r : Nat) :
    CSetCandidates :=
  ⟨s.maxRegions, Function.update s.containsMap r CandidateOrigin.Retained,
   s.candidateGroups, s.retainedRegions ++ [r]⟩

/-- `G1CollectionSetCandidates::reset_region` (g1CollectionSetCandidates.cpp
lines 351-354): clears the region's origin tag and nothing else. -/
def CSetCandidates.resetRegion (s : CSetCandidates) (r : Nat) :
    CSetCandidates :=
  ⟨s.maxRegions, Function.update s.containsMap r CandidateOrigin.Invalid,
   s.candidateGroups, s.retainedRegions⟩

/-- `G1CollectionSetCandidates::clear` (g1CollectionSetCandidates.cpp lines
268-275): empties the retained list, abandons every marking group and resets
the origin tags of all regions below `_max_regions`. -/
def CSetCandidates.clear (s : CSetCandidates) : CSetCandidates :=
  ⟨s.maxRegions,
   fun i => if i < s.maxRegions then CandidateOrigin.Invalid
            else s.containsMap i,
   [], []⟩

/-- The registry states reachable by the claim's full operation set
(initialize, set_candidates_from_marking, add_retained_region_unsorted,
reset_region, clear) under the operations' own asserted preconditions. -/
inductive CSetCandidates.ReachableFull : CSetCandidates → Prop
  | init (max : Nat) : CSetCandidates.ReachableFull (CSetCandidates.init max)
  | setFromMarking {s : CSetCandidates} (M : Nat) (infos : List Nat) :
      CSetCandidates.ReachableFull s → s.candidateGroups = [] →
      infos.Nodup →
      (∀ r ∈ infos, r < s.maxRegions ∧ s.contains r = false) → 0 < M →
      CSetCandidates.ReachableFull (s.setFromMarking M infos)
  | addRetained {s : CSetCandidates} (r : Nat) :
      CSetCandidates.ReachableFull s → r < s.maxRegions →
      s.contains r = false →
      CSetCandidates.ReachableFull (s.addRetained r)
  | resetRegion {s : CSetCandidates} (r : Nat) :
      CSetCandidates.ReachableFull s → r < s.maxRegions →
      s.contains r = true →
      CSetCandidates.ReachableFull (s.resetRegion r)
  | clear {s : CSetCandidates} :
      CSetCandidates.ReachableFull s → CSetCandidates.ReachableFull s.clear

/-- The registry states reachable without `reset_region`; the other four
operations and their preconditions are as in `ReachableFull`. -/
inductive CSetCandidates.Reachable : CSetCandidates → Prop
  | init (max : Nat) : CSetCandidates.Reachable (CSetCandidates.init max)
  | setFromMarking {s : CSetCandidates} (M : Nat) (infos : List Nat) :
      CSetCandidates.Reachable s → s.candidateGroups = [] →
      infos.Nodup →
      (∀ r ∈ infos, r < s.maxRegions ∧ s.contains r = false) → 0 < M →
      CSetCandidates.Reachable (s.setFromMarking M infos)
  | addRetained {s : CSetCandidates} (r : Nat) :
      CSetCandidates.Reachable s → r < s.maxRegions →
      s.contains r = false →
      CSetCandidates.Reachable (s.addRetained r)
  | clear {s : CSetCandidates} :
      CSetCandidates.Reachable s → CSetCandidates.Reachable s.clear

/-- The origin map recomputed independently by walking both lists, as
`G1CollectionSetCandidates::verify` does (g1CollectionSetCandidates.cpp
lines 410-437). -/
def CSetCandidates.recomputeOrigin (s : CSetCandidates) (r : Nat) :
    CandidateOrigin :=
  if r ∈ s.markingRegions then CandidateOrigin.Marking
  else if r ∈ s.retainedRegions then CandidateOrigin.Retained
  else CandidateOrigin.Invalid

/-- The consistency property asserted by claim C2: `contains(r)` iff `r`
appears in exactly one of the two lists, never in both, and the
authoritative origin map agrees with the recomputed one. -/
def CSetCandidates.consistent (s : CSetCandidates) : Prop :=
  (∀ r < s.maxRegions,
    (s.contains r = true ↔
      (s.markingRegions ++ s.retainedRegions).count r = 1)) ∧
  (∀ r < s.maxRegions,
    ¬(r ∈ s.markingRegions ∧ r ∈ s.retainedRegions)) ∧
  (∀ r < s.maxRegions, s.containsMap r = s.recomputeOrigin r)

/-- Strengthened induction invariant: both lists hold only regions below
`_max_regions`, their concatenation has no duplicates, and the origin map
matches the recomputed one. -/
def CSetCandidates.inv (s : CSetCandidates) : Prop :=
  (∀ r ∈ s.markingRegions, r < s.maxRegions) ∧
  (∀ r ∈ s.retainedRegions, r < s.maxRegions) ∧
  (s.markingRegions ++ s.retainedRegions).Nodup ∧
  (∀ r < s.maxRegions, s.containsMap r = s.recomputeOrigin r)

theorem markingGroups_flatten (M : Nat) (infos : List Nat) :
    (markingGroups M infos).flatten = infos := by
  cases infos with
  | nil => simp [markingGroups]
  | cons r rest => simp [markingGroups, markingGroupsLoop_join]

theorem foldl_update_marking (infos : List Nat) (m : Nat → CandidateOrigin)
    (x : Nat) :
    (infos.foldl (fun m r => Function.update m r CandidateOrigin.Marking) m) x
      = if x ∈ infos then CandidateOrigin.Marking else m x := by
  induction infos generalizing m with
  | nil => simp
  | cons r rest ih =>
    simp only [List.foldl_cons]
    rw [ih]
    by_cases hx : x ∈ rest
    · simp [hx]
    · by_cases hxr : x = r
      · simp [hx, hxr, Function.update_apply]
      · simp [hx, hxr, Function.update_apply]

theorem consistent_of_inv (s : CSetCandidates) (h : s.inv) : s.consistent := by
  obtain ⟨hmb, hrb, hnd, hmap⟩ := h
  have hdisj : s.markingRegions.Disjoint s.retainedRegions :=
    List.disjoint_of_nodup_append hnd
  have hmem : ∀ r, r < s.maxRegions →
      (s.contains r = true ↔ r ∈ s.markingRegions ∨ r ∈ s.retainedRegions) := by
    intro r hr
    rw [CSetCandidates.contains, bne_iff_ne, hmap r hr,
      CSetCandidates.recomputeOrigin]
    by_cases h1 : r ∈ s.markingRegions
    · simp [h1]
    · by_cases h2 : r ∈ s.retainedRegions
      · simp [h1, h2]
      · simp [h1, h2]
  refine ⟨?_, ?_, hmap⟩
  · intro r hr
    rw [hmem r hr, List.count_append]
    constructor
    · rintro (h1 | h2)
      · rw [List.count_eq_one_of_mem (hnd.of_append_left) h1,
          List.count_eq_zero_of_not_mem (hdisj h1)]
      · rw [List.count_eq_one_of_mem (hnd.of_append_right) h2,
          List.count_eq_zero_of_not_mem (fun hm => hdisj hm h2)]
    · intro hc
      by_contra hn
      push_neg at hn
      rw [List.count_eq_zero_of_not_mem hn.1,
        List.count_eq_zero_of_not_mem hn.2] at hc
      exact absurd hc (by decide)
  · intro r _hr hboth
    exact hdisj hboth.1 hboth.2

theorem inv_of_reachable (s : CSetCandidates) (h : s.Reachable) : s.inv := by
  induction h with
  | init max =>
    refine ⟨?_, ?_, ?_, ?_⟩ <;>
      simp [CSetCandidates.init, CSetCandidates.markingRegions,
        CSetCandidates.recomputeOrigin]
  | setFromMarking M infos _hr hempty hnodup hfresh _hM ih =>
    rename_i s'
    obtain ⟨_hmb, hrb, hnd, hmap⟩ := ih
    have hms : s'.markingRegions = [] := by
      simp [CSetCandidates.markingRegions, hempty]
    by_cases hinf : infos.isEmpty
    · have : s'.setFromMarking M infos = s' := by
        simp [CSetCandidates.setFromMarking, hinf]
      rw [this]
      exact ⟨_hmb, hrb, hnd, hmap⟩
    · have hmark' : (s'.setFromMarking M infos).markingRegions = infos := by
        simp [CSetCandidates.setFromMarking, hinf,
          CSetCandidates.markingRegions, hempty, markingGroups_flatten]
      have hret' : (s'.setFromMarking M infos).retainedRegions
          = s'.retainedRegions := by
        simp [CSetCandidates.setFromMarking, hinf]
      have hmax' : (s'.setFromMarking M infos).maxRegions = s'.maxRegions := by
        simp [CSetCandidates.setFromMarking, hinf]
      have hmap' : (s'.setFromMarking M infos).containsMap
          = infos.foldl (fun m r => Function.update m r CandidateOrigin.Marking)
              s'.containsMap := by
        simp [CSetCandidates.setFromMarking, hinf]
      have hfreshInv : ∀ r ∈ infos, s'.containsMap r = CandidateOrigin.Invalid := by
        intro r hrin
        have := (hfresh r hrin).2
        rw [CSetCandidates.contains] at this
        simpa [bne_iff_ne] using this
      have hnotret : ∀ r ∈ infos, r ∉ s'.retainedRegions := by
        intro r hrin hcon
        have hlt := (hfresh r hrin).1
        have := hmap r hlt
        rw [hfreshInv r hrin] at this
        rw [CSetCandidates.recomputeOrigin, hms] at this
        simp [hcon] at this
      have hretnd : s'.retainedRegions.Nodup := by
        rw [hms] at hnd
        simpa using hnd
      refine ⟨?_, ?_, ?_, ?_⟩
      · rw [hmark']
        intro r hrin
        rw [hmax']
        exact (hfresh r hrin).1
      · rw [hret', hmax']
        exact hrb
      · rw [hmark', hret']
        rw [List.nodup_append]
        exact ⟨hnodup, hretnd, fun a ha => hnotret a ha⟩
      · intro x hx
        rw [hmax'] at hx
        rw [hmap', foldl_update_marking]
        rw [CSetCandidates.recomputeOrigin, hmark', hret']
        by_cases hxi : x ∈ infos
        · simp [hxi]
        · rw [if_neg hxi, if_neg hxi]
          have := hmap x hx
          rw [CSetCandidates.recomputeOrigin, hms] at this
          simpa using this
  | addRetained r _hr hlt hcont ih =>
    rename_i s'
    obtain ⟨hmb, hrb, hnd, hmap⟩ := ih
    have hInv : s'.containsMap r = CandidateOrigin.Invalid := by
      rw [CSetCandidates.contains] at hcont
      simpa [bne_iff_ne] using hcont
    have hrec := hmap r hlt
    rw [hInv, CSetCandidates.recomputeOrigin] at hrec
    have hnm : r ∉ s'.markingRegions := by
      intro hc
      simp [hc] at hrec
    have hnr : r ∉ s'.retainedRegions := by
      intro hc
      by_cases h1 : r ∈ s'.markingRegions
      · exact hnm h1
      · simp [h1, hc] at hrec
    have hmark' : (s'.addRetained r).markingRegions = s'.markingRegions := rfl
    refine ⟨?_, ?_, ?_, ?_⟩
    · rw [hmark']
      exact hmb
    · intro x hx
      rcases List.mem_append.mp hx with h1 | h1
      · exact hrb x h1
      · have : x = r := by simpa using h1
        rw [this]
        exact hlt
    · rw [hmark']
      show (s'.markingRegions ++ (s'.retainedRegions ++ [r])).Nodup
      rw [← List.append_assoc]
      rw [List.nodup_append]
      refine ⟨hnd, by simp, ?_⟩
      intro a ha
      simp only [List.mem_singleton]
      intro hae
      rw [hae] at ha
      rcases List.mem_append.mp ha with h1 | h1
      · exact hnm h1
      · exact hnr h1
    · intro x hx
      show Function.update s'.containsMap r CandidateOrigin.Retained x = _
      rw [CSetCandidates.recomputeOrigin, hmark']
      by_cases hxr : x = r
      · subst hxr
        rw [Function.update_same]
        simp [hnm, CSetCandidates.addRetained]
      · rw [Function.update_noteq hxr]
        have hold := hmap x hx
        rw [CSetCandidates.recomputeOrigin] at hold
        rw [hold]
        have hmm : (s'.addRetained r).retainedRegions
            = s'.retainedRegions ++ [r] := rfl
        rw [hmm]
        by_cases h1 : x ∈ s'.markingRegions
        · simp [h1]
        · by_cases h2 : x ∈ s'.retainedRegions
          · simp [h1, h2]
          · simp [h1, h2, hxr]
  | clear _hr _ih =>
    rename_i s'
    refine ⟨?_, ?_, ?_, ?_⟩
    · intro x hx
      simp [CSetCandidates.clear, CSetCandidates.markingRegions] at hx
    · intro x hx
      simp [CSetCandidates.clear] at hx
    · simp [CSetCandidates.clear, CSetCandidates.markingRegions]
    · intro x hx
      simp only [CSetCandidates.clear] at hx ⊢
      rw [if_pos hx]
      simp [CSetCandidates.recomputeOrigin, CSetCandidates.markingRegions,
        CSetCandidates.clear]

/-- A registry state reachable by the claim's own operation sequence:
initialize with one region, add region 0 as retained, then reset region 0.
Every precondition of every step holds. -/
def c2CexState : CSetCandidates :=
  ((CSetCandidates.init 1).addRetained 0).resetRegion 0

/-- Counterexample to C2 as stated: after the reachable sequence
`initialize(1); add_retained_region_unsorted(0); reset_region(0)` the
consistency property fails, because `reset_region` clears only the origin
tag while region 0 is still in the retained-regions list, so
`contains(0) == false` although region 0 appears in exactly one list. -/
theorem c2_registry_consistency_counterexample :
    CSetCandidates.ReachableFull c2CexState ∧ ¬c2CexState.consistent := by
  constructor
  · exact CSetCandidates.ReachableFull.resetRegion 0
      (CSetCandidates.ReachableFull.addRetained 0
        (CSetCandidates.ReachableFull.init 1) (by decide) (by decide))
      (by decide) (by decide)
  · intro h
    have h0 := (h.1 0 (by decide)).mpr (by decide)
    have : c2CexState.contains 0 = false := by decide
    rw [h0] at this
    exact absurd this (by decide)

/-- C2 (amended). After any sequence of `initialize`,
`set_candidates_from_marking`, `add_retained_region_unsorted` and `clear`
(each under its asserted preconditions), for every region `r` below
`_max_regions`: `contains(r)` holds iff `r` appears in exactly one of the
marking candidate groups or the retained-regions list and never in both, and
the authoritative origin map equals the origin map recomputed by walking
both lists.  (`reset_region` is excluded: it clears only the origin tag, so
the invariant survives it only when the caller also removes the region from
its list, as the counterexample shows.) -/
theorem c2_registry_consistency (s : CSetCandidates)
    (h : s.Reachable) : s.consistent :=
  consistent_of_inv s (inv_of_reachable s h)

/-- Witness for the amended C2 on the state reached by
`initialize(2); add_retained_region_unsorted(1)`. -/
theorem c2_registry_consistency_witness :
    ((CSetCandidates.init 2).addRetained 1).consistent :=
  c2_registry_consistency ((CSetCandidates.init 2).addRetained 1)
    (CSetCandidates.Reachable.addRetained 1
      (CSetCandidates.Reachable.init 2) (by decide) (by decide))

/-- `G1CMBitMapHR` (g1ConcurrentMarkBitMap.hpp lines 79-114): the per-region
livemap, reduced to its backing bit vector and the `_is_marked` flag.  The
tri-state `_is_initialized` commit flag only sequences the one-time lazy
commit between racing threads; in this sequential embedding commit happens
atomically inside `set`, so the flag is not represented. -/
structure CMBitMapHR where
  is_marked : Bool
  bits : Nat → Bool

/-- Modelled from the spec: the lazy commit routine of `G1CMBitMapHR`
(declared as `initialize()` in g1ConcurrentMarkBitMap.hpp line 111; its body
is not under src/).  Spec section 4.1: the first marker for a region
triggers lazy commit of that region's backing bits, the committed bitmap
holds no stale marks, and the livemap becomes in-use for the cycle; the
inline comment at g1ConcurrentMarkBitMap.inline.hpp lines 65-66 likewise
says it resets the marking information. -/
def CMBitMapHR.commitReset (_hr : CMBitMapHR) : CMBitMapHR :=
  ⟨true, fun _ => false⟩

/-- Modelled from the spec: `BitMap::par_set_bit` (utilities/bitMap, not
under src/), as used by `G1CMBitMapHR::set`: atomically sets the bit and
returns whether this call changed it (spec section 4.1, mark "returns
whether this call performed the mark"). -/
def CMBitMapHR.parSetBit (hr : CMBitMapHR) (index : Nat) : Bool × CMBitMapHR :=
  if hr.bits index then (false, hr)
  else (true, ⟨hr.is_marked, Function.update hr.bits index true⟩)

/-- `G1CMBitMapHR::set` (g1ConcurrentMarkBitMap.inline.hpp lines 63-71): if
this is the first object marked in the region this cycle, commit and reset
the livemap first, then par-set the bit. -/
def CMBitMapHR.set (hr : CMBitMapHR) (index : Nat) : Bool × CMBitMapHR :=
  if hr.is_marked then hr.parSetBit index
  else hr.commitReset.parSetBit index

/-- `G1CMBitMapHR::get` (g1ConcurrentMarkBitMap.inline.hpp lines 58-61):
marked this cycle and the bit is set. -/
def CMBitMapHR.get (hr : CMBitMapHR) (index : Nat) : Bool :=
  hr.is_marked && hr.bits index

/-- Modelled from the spec: the scan loop of `BitMap::find_first_set_bit`
(utilities/bitMap, not under src/): least set-bit index in `[cur, e)`, or
`e` when none; fuel-based so the definition evaluates (fuel `e - cur`
suffices). -/
def bmFindFirstSetBitGo (bits : Nat → Bool) (e : Nat) : Nat → Nat → Nat
  | 0, _cur => e
  | fuel + 1, cur =>
    if cur < e then
      (if bits cur then cur else bmFindFirstSetBitGo bits e fuel (cur + 1))
    else e

/-- Modelled from the spec: `BitMap::find_first_set_bit` over `[beg, e)`. -/
def bmFindFirstSetBit (bits : Nat → Bool) (beg e : Nat) : Nat :=
  bmFindFirstSetBitGo bits e (e - beg) beg

/-- `G1CMBitMapHR::find_first_set_bit` (g1ConcurrentMarkBitMap.inline.hpp
lines 73-81): `end` for an unmarked livemap or an empty range, otherwise the
underlying bitmap search. -/
def CMBitMapHR.findFirstSetBit (hr : CMBitMapHR) (beg e : Nat) : Nat :=
  if !hr.is_marked || beg == e then e
  else bmFindFirstSetBit hr.bits beg e

theorem hr_set_of_get_false (hr : CMBitMapHR) (index : Nat)
    (h : hr.get index = false) :
    (hr.set index).1 = true ∧ (hr.set index).2.get index = true := by
  rw [CMBitMapHR.get] at h
  by_cases hmk : hr.is_marked
  · have hb : hr.bits index = false := by
      rw [hmk] at h
      simpa using h
    constructor
    · simp [CMBitMapHR.set, hmk, CMBitMapHR.parSetBit, hb]
    · simp [CMBitMapHR.set, hmk, CMBitMapHR.parSetBit, hb, CMBitMapHR.get,
        Function.update_same]
  · constructor
    · simp [CMBitMapHR.set, hmk, CMBitMapHR.commitReset, CMBitMapHR.parSetBit]
    · simp [CMBitMapHR.set, hmk, CMBitMapHR.commitReset, CMBitMapHR.parSetBit,
        CMBitMapHR.get, Function.update_same]

theorem hr_set_of_get_true (hr : CMBitMapHR) (index : Nat)
    (h : hr.get index = true) :
    (hr.set index).1 = false ∧ (hr.set index).2.get index = true := by
  rw [CMBitMapHR.get, Bool.and_eq_true] at h
  constructor
  · simp [CMBitMapHR.set, h.1, CMBitMapHR.parSetBit, h.2]
  · simp [CMBitMapHR.set, h.1, CMBitMapHR.parSetBit, h.2, CMBitMapHR.get]

/-- `G1CMBitMap` (g1ConcurrentMarkBitMap.hpp lines 116-172): one livemap per
region.  Heap addresses are word indices; `_g1h->addr_to_region` divides by
the region size in words (`wordsPerRegion`), `bottom_addr_for_region`
multiplies back, and with LogMinObjAlignment = 0 `addr_to_offset` is the
difference from the region bottom and `offset_to_addr` the sum. -/
structure CMBitMap where
  regionLivemaps : Nat → CMBitMapHR
  wordsPerRegion : Nat

/-- `G1CollectedHeap::addr_to_region` for this bitmap's geometry. -/
def CMBitMap.addrToRegion (bm : CMBitMap) (addr : Nat) : Nat :=
  addr / bm.wordsPerRegion

/-- `G1CollectedHeap::bottom_addr_for_region` for this bitmap's geometry. -/
def CMBitMap.bottomAddrForRegion (bm : CMBitMap) (ridx : Nat) : Nat :=
  ridx * bm.wordsPerRegion

/-- The livemap offset `addr_to_offset(bottom, addr)` of an address within
its own region. -/
def CMBitMap.offsetOf (bm : CMBitMap) (addr : Nat) : Nat :=
  addr - bm.bottomAddrForRegion (bm.addrToRegion addr)

/-- `G1CMBitMap::is_marked` (g1ConcurrentMarkBitMap.inline.hpp lines
122-127). -/
def CMBitMap.isMarked (bm : CMBitMap) (addr : Nat) : Bool :=
  (bm.regionLivemaps (bm.addrToRegion addr)).get (bm.offsetOf addr)

/-- `G1CMBitMap::par_mark` (g1ConcurrentMarkBitMap.inline.hpp lines
133-138): route the address to its region livemap and set the bit there. -/
def CMBitMap.parMark (bm : CMBitMap) (addr : Nat) : Bool × CMBitMap :=
  let ridx := bm.addrToRegion addr
  let res := (bm.regionLivemaps ridx).set (bm.offsetOf addr)
  (res.1, ⟨Function.update bm.regionLivemaps ridx res.2, bm.wordsPerRegion⟩)

/-- `G1CMBitMap::get_next_marked_addr` (g1ConcurrentMarkBitMap.inline.hpp
lines 88-120): `limit` when the range is empty or the region livemap is not
marked; otherwise translate the livemap's first set bit back to an
address. -/
def CMBitMap.getNextMarkedAddr (bm : CMBitMap) (addr limit : Nat) : Nat :=
  if addr = limit then limit
  else
    if !(bm.regionLivemaps (bm.addrToRegion addr)).is_marked then limit
    else
      bm.bottomAddrForRegion (bm.addrToRegion addr) +
        (bm.regionLivemaps (bm.addrToRegion addr)).findFirstSetBit
          (bm.offsetOf addr)
          (limit - bm.bottomAddrForRegion (bm.addrToRegion addr))

theorem parMark_fst (bm : CMBitMap) (addr : Nat) :
    (bm.parMark addr).1
      = ((bm.regionLivemaps (bm.addrToRegion addr)).set (bm.offsetOf addr)).1 :=
  rfl

theorem parMark_isMarked (bm : CMBitMap) (addr : Nat) :
    (bm.parMark addr).2.isMarked addr
      = ((bm.regionLivemaps (bm.addrToRegion addr)).set
          (bm.offsetOf addr)).2.get (bm.offsetOf addr) := by
  simp [CMBitMap.parMark, CMBitMap.isMarked, CMBitMap.addrToRegion,
    CMBitMap.bottomAddrForRegion, CMBitMap.offsetOf, Function.update_same]

/-- The state after the first `par_mark(addr)` call followed by `k` further
`par_mark(addr)` calls. -/
def CMBitMap.parMarkRep (bm : CMBitMap) (addr : Nat) : Nat → CMBitMap
  | 0 => (bm.parMark addr).2
  | k + 1 => ((bm.parMarkRep addr k).parMark addr).2

theorem parMark_of_unmarked (bm : CMBitMap) (addr : Nat)
    (h : bm.isMarked addr = false) :
    (bm.parMark addr).1 = true ∧ (bm.parMark addr).2.isMarked addr = true := by
  rw [CMBitMap.isMarked] at h
  rw [parMark_fst, parMark_isMarked]
  exact hr_set_of_get_false _ _ h

theorem parMark_of_marked (bm : CMBitMap) (addr : Nat)
    (h : bm.isMarked addr = true) :
    (bm.parMark addr).1 = false ∧ (bm.parMark addr).2.isMarked addr = true := by
  rw [CMBitMap.isMarked] at h
  rw [parMark_fst, parMark_isMarked]
  exact hr_set_of_get_true _ _ h

/-- C3. For every word address, a first `par_mark` call from a state in
which the word is unmarked performs the mark and returns true; after it,
every subsequent `par_mark` on the same word returns false and leaves
`is_marked` true, for any number of repetitions. -/
theorem c3_par_mark_idempotent (bm : CMBitMap) (addr : Nat)
    (h : bm.isMarked addr = false) :
    (bm.parMark addr).1 = true ∧
    ∀ k, (bm.parMarkRep addr k).isMarked addr = true ∧
      ((bm.parMarkRep addr k).parMark addr).1 = false := by
  refine ⟨(parMark_of_unmarked bm addr h).1, ?_⟩
  intro k
  induction k with
  | zero =>
    have h0 : (bm.parMarkRep addr 0).isMarked addr = true :=
      (parMark_of_unmarked bm addr h).2
    exact ⟨h0, (parMark_of_marked _ addr h0).1⟩
  | succ k ih =>
    have hstep : (bm.parMarkRep addr (k + 1)).isMarked addr = true :=
      (parMark_of_marked _ addr ih.1).2
    exact ⟨hstep, (parMark_of_marked _ addr hstep).1⟩

/-- An entirely unmarked, uncommitted bitmap with eight words per region,
used by the bitmap witnesses. -/
def cmBitMapFresh : CMBitMap :=
  ⟨fun _ => ⟨false, fun _ => false⟩, 8⟩

/-- Witness for C3 on the fresh bitmap at word address 5. -/
theorem c3_par_mark_idempotent_witness :
    cmBitMapFresh.isMarked 5 = false ∧
    ((cmBitMapFresh.parMark 5).1 = true ∧
      ∀ k, (cmBitMapFresh.parMarkRep 5 k).isMarked 5 = true ∧
        ((cmBitMapFresh.parMarkRep 5 k).parMark 5).1 = false) :=
  ⟨rfl, c3_par_mark_idempotent cmBitMapFresh 5 rfl⟩

theorem bmFindFirstSetBitGo_none (bits : Nat → Bool) (e : Nat) :
    ∀ fuel cur, (∀ i, cur ≤ i → i < e → bits i = false) →
      bmFindFirstSetBitGo bits e fuel cur = e := by
  intro fuel
  induction fuel with
  | zero => intro cur _h; rfl
  | succ fuel ih =>
    intro cur h
    rw [bmFindFirstSetBitGo]
    by_cases hc : cur < e
    · rw [if_pos hc, h cur (le_refl cur) hc, if_neg (by simp)]
      exact ih (cur + 1) (fun i h1 h2 => h i (by omega) h2)
    · rw [if_neg hc]

/-- C4. For every scan with `addr <= limit` inside a single region (the
limit does not pass the region's end), if no marked word exists in
`[addr, limit)` then `get_next_marked_addr` returns exactly `limit`; in
particular this covers a region whose livemap is unmarked or was never
committed, which returns `limit` from the livemap test alone. -/
theorem c4_get_next_marked_addr_sentinel (bm : CMBitMap) (addr limit : Nat)
    (hal : addr ≤ limit)
    (hlim : limit ≤ bm.bottomAddrForRegion (bm.addrToRegion addr)
        + bm.wordsPerRegion)
    (hnone : ∀ a, addr ≤ a → a < limit → bm.isMarked a = false) :
    bm.getNextMarkedAddr addr limit = limit := by
  by_cases heq : addr = limit
  · simp [CMBitMap.getNextMarkedAddr, heq]
  · have hlt : addr < limit := lt_of_le_of_ne hal heq
    rw [CMBitMap.getNextMarkedAddr, if_neg heq]
    by_cases hmk : (bm.regionLivemaps (bm.addrToRegion addr)).is_marked
    · simp only [hmk, Bool.not_true, Bool.false_eq_true, if_false]
      have hba : bm.bottomAddrForRegion (bm.addrToRegion addr) ≤ addr := by
        rw [CMBitMap.bottomAddrForRegion, CMBitMap.addrToRegion]
        exact Nat.div_mul_le_self addr bm.wordsPerRegion
      have hbl : bm.bottomAddrForRegion (bm.addrToRegion addr) ≤ limit :=
        le_trans hba hal
      rw [CMBitMapHR.findFirstSetBit, CMBitMap.offsetOf]
      have hne2 : ¬(addr - bm.bottomAddrForRegion (bm.addrToRegion addr)
          = limit - bm.bottomAddrForRegion (bm.addrToRegion addr)) := by
        omega
      rw [if_neg (by simp [hmk, hne2])]
      have hbits : ∀ i,
          addr - bm.bottomAddrForRegion (bm.addrToRegion addr) ≤ i →
          i < limit - bm.bottomAddrForRegion (bm.addrToRegion addr) →
          (bm.regionLivemaps (bm.addrToRegion addr)).bits i = false := by
        intro i h1 h2
        have hWpos : 0 < bm.wordsPerRegion := by
          by_contra hW0
          have : bm.wordsPerRegion = 0 := by omega
          rw [CMBitMap.bottomAddrForRegion, this] at hbl
          omega
        have ha := hnone (bm.bottomAddrForRegion (bm.addrToRegion addr) + i)
          (by omega) (by omega)
        have hdiv : (bm.bottomAddrForRegion (bm.addrToRegion addr) + i)
            / bm.wordsPerRegion = bm.addrToRegion addr := by
          apply Nat.div_eq_of_lt_le
          · rw [CMBitMap.bottomAddrForRegion] at *
            omega
          · rw [CMBitMap.bottomAddrForRegion] at *
            have : i < bm.wordsPerRegion := by omega
            calc bm.addrToRegion addr * bm.wordsPerRegion + i
                < bm.addrToRegion addr * bm.wordsPerRegion
                    + bm.wordsPerRegion := by omega
            _ = (bm.addrToRegion addr + 1) * bm.wordsPerRegion := by ring
        rw [CMBitMap.isMarked, CMBitMap.offsetOf, CMBitMap.addrToRegion,
          hdiv] at ha
        rw [CMBitMapHR.get, hmk, Bool.true_and] at ha
        have hsub : bm.bottomAddrForRegion (bm.addrToRegion addr) + i
            - bm.bottomAddrForRegion (bm.addrToRegion addr) = i := by
          omega
        rwa [hsub] at ha
      rw [bmFindFirstSetBit,
        bmFindFirstSetBitGo_none _ _ _ _ hbits]
      omega
    · simp [hmk]

/-- Witness for C4 on the fresh (entirely uncommitted) bitmap, scanning from
word 1 to word 4 in region 0. -/
theorem c4_get_next_marked_addr_sentinel_witness :
    cmBitMapFresh.getNextMarkedAddr 1 4 = 4 :=
  c4_get_next_marked_addr_sentinel cmBitMapFresh 1 4 (by decide) (by decide)
    (fun _a _h1 _h2 => rfl)

/-- The `BitmapState` of `G1HRLivemap` (class declaration not under src/;
the states are named after spec section 3's lifecycle Uninitialized ->
Initializing -> Initialized/Marked; `Uninit` stands for the C++
Uninitialized and `Inited` for Initialized). -/
inductive BitmapState where
  | Uninit
  | Initializing
  | Inited
  | Marked
deriving DecidableEq

/-- `G1HRLivemap` (its member definitions are in
g1ConcurrentMarkBitMap.cpp lines 151-206; the class declaration with the
field list is not under src/ and is reconstructed from those definitions:
`_state`, `_is_humongous` and the backing `_bitmap`). -/
structure HRLivemap where
  state : BitmapState
  is_humongous : Bool
  bits : Nat → Bool

/-- Modelled from the spec: `G1HRLivemap::is_marked` (declaration not under
src/).  Spec section 3: the livemap reaches the in-use terminal state
`Marked` once marking information exists; `clear()` at
g1ConcurrentMarkBitMap.cpp lines 156-164 demotes exactly that state. -/
def HRLivemap.is_marked (lm : HRLivemap) : Bool :=
  lm.state == BitmapState.Marked

/-- Modelled from the spec: `G1HRLivemap`'s word query (declaration not
under src/), following the same shape as `G1CMBitMapHR::get`: a word is
marked iff the livemap is in use and its bit is set; spec section 4.1,
`is_marked` returns false for any uncommitted region. -/
def HRLivemap.get (lm : HRLivemap) (i : Nat) : Bool :=
  lm.is_marked && lm.bits i

/-- `G1HRLivemap::clear_range` (g1ConcurrentMarkBitMap.cpp lines 196-206):
a no-op unless the livemap is marked and not humongous; otherwise clears the
bits of the range (the `large` flag only selects the clearing strategy of
the underlying BitMap, with identical effect).  The MemRegion is given as
the bit-offset interval `[lo, hi)`. -/
def HRLivemap.clear_range (lm : HRLivemap) (lo hi : Nat) : HRLivemap :=
  if !lm.is_marked || lm.is_humongous then lm
  else
    ⟨lm.state, lm.is_humongous,
     fun i => if lo ≤ i ∧ i < hi then false else lm.bits i⟩

/-- `G1HRLivemap::clear` (g1ConcurrentMarkBitMap.cpp lines 156-164): when
marked, drop back to Initialized; a marked humongous livemap additionally
resets the humongous flag and drops to Uninitialized. -/
def HRLivemap.clear (lm : HRLivemap) : HRLivemap :=
  if lm.is_marked then
    if lm.is_humongous then ⟨BitmapState.Uninit, false, lm.bits⟩
    else ⟨BitmapState.Inited, lm.is_humongous, lm.bits⟩
  else lm

/-- `G1CMBitMap::clear_bitmap_for_region` (g1ConcurrentMarkBitMap.cpp lines
120-126): clear the livemap bits over the whole region (offsets `[0, W)` for
a region of `W` words) and then clear the livemap state. -/
def HRLivemap.clearBitmapForRegion (lm : HRLivemap) (W : Nat) : HRLivemap :=
  (lm.clear_range 0 W).clear

/-- C5. `clear_bitmap_for_region` and `clear_range` are total: on a region
whose livemap was never committed (state Uninitialized) both are no-ops
returning the livemap unchanged, and after `clear_bitmap_for_region` every
word of the region reads unmarked regardless of the prior state. -/
theorem c5_clear_region_total (lm : HRLivemap) (W : Nat) :
    (∀ i, (lm.clearBitmapForRegion W).get i = false) ∧
    (lm.state = BitmapState.Uninit → lm.clearBitmapForRegion W = lm) ∧
    (lm.state = BitmapState.Uninit → lm.clear_range 0 W = lm) := by
  have hnoop : lm.is_marked = false → lm.clear_range 0 W = lm := by
    intro hm
    rw [HRLivemap.clear_range, if_pos (by simp [hm])]
  refine ⟨?_, ?_, ?_⟩
  · intro i
    by_cases hm : lm.is_marked
    · by_cases hh : lm.is_humongous
      · rw [HRLivemap.clearBitmapForRegion, HRLivemap.clear_range,
          if_pos (by simp [hh])]
        rw [HRLivemap.clear, if_pos hm, if_pos hh]
        simp [HRLivemap.get, HRLivemap.is_marked]
      · rw [HRLivemap.clearBitmapForRegion, HRLivemap.clear_range,
          if_neg (by simp [hm, hh])]
        have hm' : lm.state = BitmapState.Marked := by
          simpa [HRLivemap.is_marked] using hm
        rw [HRLivemap.clear]
        rw [if_pos (by simpa [HRLivemap.is_marked] using hm')]
        rw [if_neg (by simpa using hh)]
        simp [HRLivemap.get, HRLivemap.is_marked]
    · rw [HRLivemap.clearBitmapForRegion, hnoop (by simpa using hm),
        HRLivemap.clear, if_neg (by simpa using hm)]
      simp [HRLivemap.get, Bool.eq_false_iff.mpr hm]
  · intro hs
    have hm : lm.is_marked = false := by
      simp [HRLivemap.is_marked, hs]
    rw [HRLivemap.clearBitmapForRegion, hnoop hm, HRLivemap.clear,
      if_neg (by simp [hm])]
  · intro hs
    exact hnoop (by simp [HRLivemap.is_marked, hs])

/-- Witness for C5: no-op on an uncommitted livemap, and a fully marked
livemap reads entirely unmarked after `clear_bitmap_for_region`. -/
theorem c5_clear_region_total_witness :
    ((HRLivemap.mk BitmapState.Uninit false fun _ => false).clearBitmapForRegion 4
        = HRLivemap.mk BitmapState.Uninit false fun _ => false) ∧
    ((HRLivemap.mk BitmapState.Uninit false fun _ => false).clear_range 0 4
        = HRLivemap.mk BitmapState.Uninit false fun _ => false) ∧
    ∀ i, ((HRLivemap.mk BitmapState.Marked false fun _ => true).clearBitmapForRegion 4).get i
        = false :=
  ⟨(c5_clear_region_total (HRLivemap.mk BitmapState.Uninit false fun _ => false) 4).2.1 rfl,
   (c5_clear_region_total (HRLivemap.mk BitmapState.Uninit false fun _ => false) 4).2.2 rfl,
   (c5_clear_region_total (HRLivemap.mk BitmapState.Marked false fun _ => true) 4).1⟩

/-- `G1CollectionSetCandidateInfo` (g1CollectionSetCandidates.hpp lines
129-141) as far as sorting is concerned: the region and its gc efficiency;
the C++ `double` is modelled by the rationals (no NaN arises: efficiencies
are quotients of nonnegative byte counts by positive predicted times). -/
structure CandidateInfo where
  r : Nat
  gc_efficiency : ℚ
deriving DecidableEq

/-- `G1CollectionCandidateList::compare_gc_efficiency`
(g1CollectionSetCandidates.cpp lines 97-110): negative when the first
candidate is more efficient, positive when less, zero on ties, giving a
descending order under an ascending sort. -/
def compare_gc_efficiency (ci1 ci2 : CandidateInfo) : Int :=
  if ci1.gc_efficiency > ci2.gc_efficiency then -1
  else if ci1.gc_efficiency < ci2.gc_efficiency then 1
  else 0

/-- `G1CollectionCandidateGroupsList::compare_gc_efficiency`
(g1CollectionSetCandidates.cpp lines 180-192); a group contributes only its
cached `gc_efficiency()`, so a group is modelled by that number. -/
def groups_compare_gc_efficiency (gr1 gr2 : ℚ) : Int :=
  if gr1 > gr2 then -1
  else if gr1 < gr2 then 1
  else 0

/-- Modelled from the spec: `GrowableArray::sort` (utilities/growableArray,
not under src/).  Spec section 4.2 describes `sort_by_efficiency()` as a
stable total order by descending efficiency, so the sort is modelled as a
stable merge sort that orders elements whose comparator result is at most
zero first. -/
def sortByComparator {α : Type} (cmp : α → α → Int) (l : List α) : List α :=
  l.mergeSort fun a b => decide (cmp a b ≤ 0)

/-- `G1CollectionCandidateList::sort_by_efficiency`
(g1CollectionSetCandidates.cpp lines 46-48). -/
def candidateList_sort_by_efficiency (l : List CandidateInfo) :
    List CandidateInfo :=
  sortByComparator compare_gc_efficiency l

/-- `G1CollectionCandidateGroupsList::sort_by_efficiency`
(g1CollectionSetCandidates.cpp lines 194-196). -/
def groupsList_sort_by_efficiency (l : List ℚ) : List ℚ :=
  sortByComparator groups_compare_gc_efficiency l

theorem compare_gc_efficiency_le_zero (a b : CandidateInfo) :
    (compare_gc_efficiency a b ≤ 0) ↔ b.gc_efficiency ≤ a.gc_efficiency := by
  rw [compare_gc_efficiency]
  split_ifs with h1 h2
  · simp [le_of_lt h1]
  · simp [not_le.mpr h2]
  · have heq : a.gc_efficiency = b.gc_efficiency :=
      le_antisymm (not_lt.mp h1) (not_lt.mp h2)
    simp [heq.symm.le]

theorem groups_compare_le_zero (a b : ℚ) :
    (groups_compare_gc_efficiency a b ≤ 0) ↔ b ≤ a := by
  rw [groups_compare_gc_efficiency]
  split_ifs with h1 h2
  · simp [le_of_lt h1]
  · simp [not_le.mpr h2]
  · have heq : a = b := le_antisymm (not_lt.mp h1) (not_lt.mp h2)
    simp [heq.symm.le]

theorem sortByComparator_pairwise {α : Type} (cmp : α → α → Int)
    (eff : α → ℚ) (hcmp : ∀ a b, (cmp a b ≤ 0) ↔ eff b ≤ eff a)
    (l : List α) :
    (sortByComparator cmp l).Pairwise (fun a b => eff b ≤ eff a) := by
  have htrans : ∀ a b c : α, decide (cmp a b ≤ 0) → decide (cmp b c ≤ 0) →
      decide (cmp a c ≤ 0) = true := by
    intro a b c hab hbc
    rw [decide_eq_true_iff] at *
    rw [hcmp] at *
    exact le_trans hbc hab
  have htotal : ∀ a b : α, decide (cmp a b ≤ 0) || decide (cmp b a ≤ 0) := by
    intro a b
    rcases le_total (eff a) (eff b) with h | h
    · have : cmp b a ≤ 0 := (hcmp b a).mpr h
      simp [this]
    · have : cmp a b ≤ 0 := (hcmp a b).mpr h
      simp [this]
  have h := List.sorted_mergeSort htrans htotal l
  refine h.imp ?_
  intro a b hab
  rw [decide_eq_true_iff, hcmp] at hab
  exact hab

theorem sortByComparator_stable {α : Type} (cmp : α → α → Int)
    (eff : α → ℚ) (hcmp : ∀ a b, (cmp a b ≤ 0) ↔ eff b ≤ eff a)
    (l c : List α) (hsub : c.Sublist l)
    (heq : ∀ a ∈ c, ∀ b ∈ c, eff a = eff b) :
    c.Sublist (sortByComparator cmp l) := by
  have htrans : ∀ a b c : α, decide (cmp a b ≤ 0) → decide (cmp b c ≤ 0) →
      decide (cmp a c ≤ 0) = true := by
    intro a b c hab hbc
    rw [decide_eq_true_iff] at *
    rw [hcmp] at *
    exact le_trans hbc hab
  have htotal : ∀ a b : α, decide (cmp a b ≤ 0) || decide (cmp b a ≤ 0) := by
    intro a b
    rcases le_total (eff a) (eff b) with h | h
    · have : cmp b a ≤ 0 := (hcmp b a).mpr h
      simp [this]
    · have : cmp a b ≤ 0 := (hcmp a b).mpr h
      simp [this]
  apply List.sublist_mergeSort htrans htotal ?_ hsub
  apply List.pairwise_of_forall_mem_list
  intro a ha b hb
  rw [decide_eq_true_iff, hcmp]
  exact le_of_eq (heq a ha b hb).symm

/-- C6. After `sort_by_efficiency()`, on both `G1CollectionCandidateList`
and `G1CollectionCandidateGroupsList`: every adjacent pair is in descending
efficiency order, and the sort is stable: any selection of elements of equal
efficiency keeps its prior relative order (stated as: every sub-sequence of
the input whose elements share one efficiency is still a sub-sequence of the
output). -/
theorem c6_sort_by_efficiency_descending_stable :
    (∀ (l : List CandidateInfo) (i : Nat)
        (h : i + 1 < (candidateList_sort_by_efficiency l).length),
      ((candidateList_sort_by_efficiency l).get ⟨i + 1, h⟩).gc_efficiency
        ≤ ((candidateList_sort_by_efficiency l).get ⟨i, by omega⟩).gc_efficiency) ∧
    (∀ (l c : List CandidateInfo), c.Sublist l →
        (∀ a ∈ c, ∀ b ∈ c, a.gc_efficiency = b.gc_efficiency) →
      c.Sublist (candidateList_sort_by_efficiency l)) ∧
    (∀ (l : List ℚ) (i : Nat)
        (h : i + 1 < (groupsList_sort_by_efficiency l).length),
      (groupsList_sort_by_efficiency l).get ⟨i + 1, h⟩
        ≤ (groupsList_sort_by_efficiency l).get ⟨i, by omega⟩) ∧
    (∀ (l c : List ℚ), c.Sublist l → (∀ a ∈ c, ∀ b ∈ c, a = b) →
      c.Sublist (groupsList_sort_by_efficiency l)) := by
  refine ⟨?_, ?_, ?_, ?_⟩
  · intro l i h
    have hp : (candidateList_sort_by_efficiency l).Pairwise
        (fun a b => b.gc_efficiency ≤ a.gc_efficiency) :=
      sortByComparator_pairwise compare_gc_efficiency
        CandidateInfo.gc_efficiency compare_gc_efficiency_le_zero l
    rw [List.pairwise_iff_get] at hp
    exact hp ⟨i, by omega⟩ ⟨i + 1, h⟩ (by simp)
  · intro l c hsub heq
    exact sortByComparator_stable compare_gc_efficiency
      CandidateInfo.gc_efficiency compare_gc_efficiency_le_zero l c hsub heq
  · intro l i h
    have hp : (groupsList_sort_by_efficiency l).Pairwise
        (fun a b => id b ≤ id a) :=
      sortByComparator_pairwise groups_compare_gc_efficiency
        id groups_compare_le_zero l
    rw [List.pairwise_iff_get] at hp
    exact hp ⟨i, by omega⟩ ⟨i + 1, h⟩ (by simp)
  · intro l c hsub heq
    exact sortByComparator_stable groups_compare_gc_efficiency
      id groups_compare_le_zero l c hsub heq

/-- Witness for C6: adjacent order on a sorted three-candidate list and
stability of a two-element equal-efficiency selection. -/
theorem c6_sort_by_efficiency_witness :
    (((candidateList_sort_by_efficiency
        [CandidateInfo.mk 1 3, CandidateInfo.mk 2 5, CandidateInfo.mk 3 3]).get
          ⟨1, by simp [candidateList_sort_by_efficiency, sortByComparator]⟩).gc_efficiency
      ≤ ((candidateList_sort_by_efficiency
        [CandidateInfo.mk 1 3, CandidateInfo.mk 2 5, CandidateInfo.mk 3 3]).get
          ⟨0, by simp [candidateList_sort_by_efficiency, sortByComparator]⟩).gc_efficiency) ∧
    ([CandidateInfo.mk 1 3, CandidateInfo.mk 3 3].Sublist
      (candidateList_sort_by_efficiency
        [CandidateInfo.mk 1 3, CandidateInfo.mk 2 5, CandidateInfo.mk 3 3])) :=
  ⟨c6_sort_by_efficiency_descending_stable.1
      [CandidateInfo.mk 1 3, CandidateInfo.mk 2 5, CandidateInfo.mk 3 3] 0
      (by simp [candidateList_sort_by_efficiency, sortByComparator]),
   c6_sort_by_efficiency_descending_stable.2.1
      [CandidateInfo.mk 1 3, CandidateInfo.mk 2 5, CandidateInfo.mk 3 3]
      [CandidateInfo.mk 1 3, CandidateInfo.mk 3 3]
      (by refine List.Sublist.cons₂ _ ?_; exact (List.nil_sublist _).cons₂ _ |>.cons _)
      (by intro a ha b hb; simp at ha hb; rcases ha with rfl | rfl <;>
          rcases hb with rfl | rfl <;> rfl)⟩

/-- The merge walk of `G1CollectionCandidateList::remove`
(g1CollectionSetCandidates.cpp lines 63-71): one pass over the candidates,
advancing `other_idx` on a region match and copying the entry otherwise;
once `other` is exhausted every remaining entry is copied. -/
def removeWalk : List CandidateInfo → List Nat → List CandidateInfo
  | [], _ => []
  | c :: cs, [] => c :: removeWalk cs []
  | c :: cs, s :: ss =>
    if c.r = s then removeWalk cs ss
    else c :: removeWalk cs (s :: ss)

/-- `G1CollectionCandidateList::remove` (g1CollectionSetCandidates.cpp lines
50-76): early-out on an empty other list, otherwise the linear merge walk
(the `guarantee` on lengths is a precondition carried by the theorem). -/
def candidateList_remove (l : List CandidateInfo) (other : List Nat) :
    List CandidateInfo :=
  if other.length = 0 then l else removeWalk l other

theorem removeWalk_nil (l : List CandidateInfo) : removeWalk l [] = l := by
  induction l with
  | nil => rfl
  | cons c cs ih => rw [removeWalk, ih]


theorem filter_drop_head (cs : List CandidateInfo) (a : Nat) (ss : List Nat)
    (hna : a ∉ cs.map CandidateInfo.r) :
    cs.filter (fun c => decide (c.r ∉ a :: ss))
      = cs.filter (fun c => decide (c.r ∉ ss)) := by
  apply List.filter_congr
  intro x hx
  have hxr : x.r ≠ a := fun he => hna (he ▸ List.mem_map_of_mem _ hx)
  simp [hxr]

theorem removeWalk_filter (l : List CandidateInfo) (other : List Nat)
    (hsub : other.Sublist (l.map CandidateInfo.r))
    (hnd : (l.map CandidateInfo.r).Nodup) :
    removeWalk l other = l.filter (fun c => decide (c.r ∉ other)) := by
  induction l generalizing other with
  | nil =>
    have : other = [] := List.sublist_nil.mp (by simpa using hsub)
    simp [this, removeWalk]
  | cons c cs ih =>
    simp only [List.map_cons, List.nodup_cons] at hnd
    cases other with
    | nil =>
      rw [removeWalk_nil]
      symm
      apply List.filter_eq_self.mpr
      intro x _hx
      simp
    | cons s ss =>
      by_cases hcr : c.r = s
      · subst hcr
        have hss : ss.Sublist (cs.map CandidateInfo.r) :=
          List.cons_sublist_cons.mp hsub
        simp only [removeWalk, if_pos rfl]
        rw [ih ss hss hnd.2, List.filter_cons]
        have hcnot : (decide (c.r ∉ c.r :: ss)) = false := by simp
        rw [hcnot]
        simp only [Bool.false_eq_true, if_false]
        exact (filter_drop_head cs c.r ss hnd.1).symm
      · have hss : (s :: ss).Sublist (cs.map CandidateInfo.r) := by
          cases hsub with
          | cons _ h => exact h
          | cons₂ _ h => exact absurd rfl hcr
        have hcnotin : c.r ∉ s :: ss := fun hin => hnd.1 (hss.subset hin)
        simp only [removeWalk, if_neg hcr]
        rw [ih (s :: ss) hss hnd.2, List.filter_cons]
        simp [hcnotin]

theorem filter_remove_length (l : List CandidateInfo) (other : List Nat)
    (hsub : other.Sublist (l.map CandidateInfo.r))
    (hnd : (l.map CandidateInfo.r).Nodup) :
    (l.filter (fun c => decide (c.r ∉ other))).length
      = l.length - other.length := by
  induction l generalizing other with
  | nil =>
    have : other = [] := List.sublist_nil.mp (by simpa using hsub)
    simp [this]
  | cons c cs ih =>
    simp only [List.map_cons, List.nodup_cons] at hnd
    cases other with
    | nil =>
      have : (c :: cs).filter (fun c => decide (c.r ∉ ([] : List Nat)))
          = c :: cs := by
        apply List.filter_eq_self.mpr
        intro x _hx
        simp
      rw [this]
      simp
    | cons s ss =>
      by_cases hcr : c.r = s
      · subst hcr
        have hss : ss.Sublist (cs.map CandidateInfo.r) :=
          List.cons_sublist_cons.mp hsub
        rw [List.filter_cons]
        have hcnot : (decide (c.r ∉ c.r :: ss)) = false := by simp
        rw [hcnot]
        simp only [Bool.false_eq_true, if_false]
        rw [filter_drop_head cs c.r ss hnd.1, ih ss hss hnd.2]
        simp only [List.length_cons]
        omega
      · have hss : (s :: ss).Sublist (cs.map CandidateInfo.r) := by
          cases hsub with
          | cons _ h => exact h
          | cons₂ _ h => exact absurd rfl hcr
        have hcnotin : c.r ∉ s :: ss := fun hin => hnd.1 (hss.subset hin)
        rw [List.filter_cons]
        have hcnot : (decide (c.r ∉ s :: ss)) = true := by simp [hcnotin]
        rw [hcnot, if_pos rfl, List.length_cons, ih (s :: ss) hss hnd.2]
        have hle : (s :: ss).length ≤ cs.length := by
          have := hss.length_le
          simpa using this
        simp only [List.length_cons] at hle ⊢
        omega

/-- C7. For a candidate list whose regions are distinct and a region list
`other` that is a subsequence of it (same relative order), `remove` yields
exactly the entries whose region is not in `other`, in their original
relative order, and the length drops by exactly `other.length`. -/
theorem c7_remove_subsequence (l : List CandidateInfo) (other : List Nat)
    (hsub : other.Sublist (l.map CandidateInfo.r))
    (hnd : (l.map CandidateInfo.r).Nodup) :
    candidateList_remove l other
        = l.filter (fun c => decide (c.r ∉ other)) ∧
    (candidateList_remove l other).length = l.length - other.length := by
  have hfil : candidateList_remove l other
      = l.filter (fun c => decide (c.r ∉ other)) := by
    rw [candidateList_remove]
    by_cases h0 : other.length = 0
    · have hoe : other = [] := List.length_eq_zero.mp h0
      subst hoe
      rw [if_pos (show ([] : List Nat).length = 0 from rfl)]
      symm
      apply List.filter_eq_self.mpr
      intro x _hx
      simp
    · rw [if_neg h0]
      exact removeWalk_filter l other hsub hnd
  exact ⟨hfil, by rw [hfil]; exact filter_remove_length l other hsub hnd⟩

/-- Witness for C7: removing the subsequence `[B, D]` (regions 2 and 4) from
the five-candidate list with regions 1-5 leaves regions 1, 3, 5 and length
3. -/
theorem c7_remove_subsequence_witness :
    candidateList_remove
        [CandidateInfo.mk 1 9, CandidateInfo.mk 2 8, CandidateInfo.mk 3 7,
         CandidateInfo.mk 4 6, CandidateInfo.mk 5 5] [2, 4]
      = [CandidateInfo.mk 1 9, CandidateInfo.mk 2 8, CandidateInfo.mk 3 7,
         CandidateInfo.mk 4 6, CandidateInfo.mk 5 5].filter
          (fun c => decide (c.r ∉ [2, 4])) ∧
    (candidateList_remove
        [CandidateInfo.mk 1 9, CandidateInfo.mk 2 8, CandidateInfo.mk 3 7,
         CandidateInfo.mk 4 6, CandidateInfo.mk 5 5] [2, 4]).length = 5 - 2 :=
  c7_remove_subsequence
    [CandidateInfo.mk 1 9, CandidateInfo.mk 2 8, CandidateInfo.mk 3 7,
     CandidateInfo.mk 4 6, CandidateInfo.mk 5 5] [2, 4]
    (by decide) (by decide)

/-- A heap region as seen by `G1FullGCCompactionPoint`: its `bottom()` and
`end()` word addresses, and the compaction top stored for it in the
collector's per-region table, read back by `initialize_values`
(g1FullGCCompactionPoint.cpp lines 51-53) when the point switches to the
region. -/
structure CPRegion where
  bottom : Nat
  hend : Nat
  ctop : Nat

/-- The `while (!object_will_fit(size)) switch_region();` loop of
`G1FullGCCompactionPoint::forward` (g1FullGCCompactionPoint.cpp lines
88-107): `object_will_fit` compares the size against
`pointer_delta(end, compaction_top)`; `switch_region` saves the current top
and moves to the next region of the worker's list, reloading that region's
stored compaction top; running out of regions is the asserted-unreachable
`next_region` failure, modelled as `none`. -/
def fitLoopAux (size : Nat) : CPRegion → Nat → List CPRegion →
    Option (CPRegion × Nat × List CPRegion)
  | cur, top, [] =>
    if size ≤ cur.hend - top then some (cur, top, []) else none
  | cur, top, r :: rs =>
    if size ≤ cur.hend - top then some (cur, top, r :: rs)
    else fitLoopAux size r r.ctop rs

/-- `G1FullGCCompactionPoint::forward` (g1FullGCCompactionPoint.cpp lines
101-120): after the fit loop, install a forwarding pointer only when the
object is not already at the compaction top, then advance the top by the
object size.  The result pairs the installed forwardee (none when the
object stays) with the new point state. -/
def forwardCP (cur : CPRegion) (top : Nat) (rest : List CPRegion)
    (objAddr size : Nat) :
    Option (Option Nat × (CPRegion × Nat × List CPRegion)) :=
  match fitLoopAux size cur top rest with
  | none => none
  | some (cur', top', rest') =>
    some (if objAddr ≠ top' then some top' else none,
          (cur', top' + size, rest'))

/-- `G1FullGCCompactTask::G1CompactRegionClosure::apply`
(g1FullGCCompactTask.cpp lines 79-98): copy the object's words to the
forwardee when one is installed, and clear the object's old mark bit either
way; an unforwarded object's memory is untouched.  The heap is a word-indexed
store and the mark bitmap a per-word flag. -/
def compactRegionApply (heap : Nat → Nat) (bm : Nat → Bool)
    (objAddr size : Nat) (fwd : Option Nat) : (Nat → Nat) × (Nat → Bool) :=
  match fwd with
  | none => (heap, Function.update bm objAddr false)
  | some dest =>
    (fun a => if dest ≤ a ∧ a < dest + size then heap (objAddr + (a - dest))
              else heap a,
     Function.update bm objAddr false)

/-- C8. During Phase 2, `forward` installs a forwarding pointer iff the
computed destination (the compaction top after the fit loop) differs from
the object's address; when they coincide the object stays unforwarded, and
the Phase 4 compaction closure then leaves every heap word unchanged and
only clears the object's mark bit. -/
theorem c8_no_gratuitous_self_forwarding
    (cur : CPRegion) (top : Nat) (rest : List CPRegion)
    (objAddr size : Nat) (heap : Nat → Nat) (bm : Nat → Bool)
    (cur' : CPRegion) (top' : Nat) (rest' : List CPRegion)
    (hfit : fitLoopAux size cur top rest = some (cur', top', rest')) :
    ∃ fwd state, forwardCP cur top rest objAddr size = some (fwd, state) ∧
      (fwd = none ↔ objAddr = top') ∧
      (∀ d, fwd = some d → d = top' ∧ objAddr ≠ d) ∧
      (objAddr = top' →
        (compactRegionApply heap bm objAddr size fwd).1 = heap ∧
        (compactRegionApply heap bm objAddr size fwd).2
          = Function.update bm objAddr false) := by
  refine ⟨if objAddr ≠ top' then some top' else none,
    (cur', top' + size, rest'), ?_, ?_, ?_, ?_⟩
  · rw [forwardCP, hfit]
  · by_cases h : objAddr = top'
    · simp [h]
    · simp [h]
  · intro d hd
    by_cases h : objAddr = top'
    · simp [h] at hd
    · simp [h] at hd
      exact ⟨hd.symm, fun he => h (he.trans hd.symm)⟩
  · intro h
    simp only [h, ne_eq, not_true_eq_false, if_false]
    exact ⟨rfl, rfl⟩

/-- Witness for C8: a 3-word object already sitting at the compaction top
(word 4) of a region `[0, 10)` is not forwarded and its memory is untouched
by the compaction closure. -/
theorem c8_no_gratuitous_self_forwarding_witness :
    ∃ fwd state,
      forwardCP (CPRegion.mk 0 10 0) 4 [] 4 3 = some (fwd, state) ∧
      (fwd = none ↔ 4 = 4) ∧
      (∀ d, fwd = some d → d = 4 ∧ 4 ≠ d) ∧
      (4 = 4 →
        (compactRegionApply id (fun _ => true) 4 3 fwd).1 = id ∧
        (compactRegionApply id (fun _ => true) 4 3 fwd).2
          = Function.update (fun _ => true) 4 false) :=
  c8_no_gratuitous_self_forwarding (CPRegion.mk 0 10 0) 4 [] 4 3 id
    (fun _ => true) (CPRegion.mk 0 10 0) 4 [] rfl

/-- The scan loop of `G1FullGCCompactionPoint::find_contiguous_before`
(g1FullGCCompactionPoint.cpp lines 195-208), for `num_regions > 1`.  The
list holds the hrm indices of the compaction-point regions; `limit` is
`range_limit`, the list position of the humongous start region.  `uint`
index differences are truncated Nat subtraction, which agrees with 32-bit
unsigned subtraction on the comparison with 1 for realistic region counts.
Fuel-based so the definition evaluates; fuel `limit + 1` covers every
iteration of the `for (; range_end <= range_limit; range_end++)` loop. -/
def fcbGo (l : List Nat) (num limit : Nat) : Nat → Nat → Nat → Nat × Nat
  | 0, range_end, length => (range_end - length, range_end - 1)
  | fuel + 1, range_end, length =>
    if range_end ≤ limit then
      if length = num then (range_end - length, range_end - 1)
      else
        fcbGo l num limit fuel (range_end + 1)
          (if l.getD range_end 0 - l.getD (range_end - 1) 0 = 1 then length + 1
           else 1)
    else (range_end - length, range_end - 1)

/-- `G1FullGCCompactionPoint::find_contiguous_before`
(g1FullGCCompactionPoint.cpp lines 188-210). -/
def find_contiguous_before (l : List Nat) (hr : Nat) (num : Nat) : Nat × Nat :=
  if num = 1 then
    if l.getD 0 0 = hr then (0, 0) else (0, 1)
  else
    fcbGo l num (l.indexOf hr) (l.indexOf hr + 1) 1 1

/-- The relocation decision of `G1FullGCCompactionPoint::forward_humongous`
(g1FullGCCompactionPoint.cpp lines 161-180): the object is forwarded
exactly when `range_begin != range_end`. -/
def forward_humongous_forwarded (l : List Nat) (hr : Nat) (num : Nat) : Bool :=
  (find_contiguous_before l hr num).1 != (find_contiguous_before l hr num).2

/-- Length of the maximal run of consecutive hrm indices ending at list
position `j` (specification function used to characterise the loop). -/
def runlen (l : List Nat) : Nat → Nat
  | 0 => 1
  | j + 1 => if l.getD (j + 1) 0 - l.getD j 0 = 1 then runlen l j + 1 else 1

/-- The relocation precondition asserted by claim C9: a contiguous run of
`num` list entries located entirely strictly before position `pos`. -/
def hasRunStrictlyBefore (l : List Nat) (pos num : Nat) : Prop :=
  ∃ i, i + num ≤ pos ∧
    ∀ j, j + 1 < num → l.getD (i + j + 1) 0 = l.getD (i + j) 0 + 1

theorem runlen_pos (l : List Nat) (j : Nat) : 1 ≤ runlen l j := by
  cases j with
  | zero => exact le_refl 1
  | succ j =>
    rw [runlen]
    split_ifs
    · omega
    · omega

theorem runlen_le (l : List Nat) (j : Nat) : runlen l j ≤ j + 1 := by
  induction j with
  | zero => exact le_refl 1
  | succ j ih =>
    rw [runlen]
    split_ifs
    · omega
    · omega

theorem fcbGo_forwarded (l : List Nat) (num limit : Nat) (h2 : 2 ≤ num) :
    ∀ fuel j length,
      j + 1 ≤ limit + 1 →
      length = runlen l j →
      (∀ j', j' < j → runlen l j' < num) →
      limit + 2 - (j + 1) ≤ fuel →
      ((fcbGo l num limit fuel (j + 1) length).1
          ≠ (fcbGo l num limit fuel (j + 1) length).2
        ↔ (∃ i, j ≤ i ∧ i ≤ limit ∧ num ≤ runlen l i)
          ∨ 2 ≤ runlen l limit) := by
  intro fuel
  induction fuel with
  | zero =>
    intro j length hle _hlen _hprev hfuel
    omega
  | succ fuel ih =>
    intro j length hle hlen hprev hfuel
    have hlenle : length ≤ j + 1 := by
      rw [hlen]
      exact runlen_le l j
    have hlenpos : 1 ≤ length := by
      rw [hlen]
      exact runlen_pos l j
    have hlennum : length ≤ num := by
      cases j with
      | zero =>
        rw [hlen]
        have := runlen_le l 0
        omega
      | succ j' =>
        rw [hlen, runlen]
        split_ifs
        · have := hprev j' (by omega)
          omega
        · omega
    rw [fcbGo]
    by_cases hc : j + 1 ≤ limit
    · rw [if_pos hc]
      by_cases hl : length = num
      · rw [if_pos hl]
        simp only
        constructor
        · intro _
          exact Or.inl ⟨j, le_refl j, by omega, by rw [← hlen, hl]⟩
        · intro _
          show j + 1 - length ≠ j + 1 - 1
          omega
      · rw [if_neg hl]
        have hstep : (if l.getD (j + 1) 0 - l.getD (j + 1 - 1) 0 = 1
            then length + 1 else 1) = runlen l (j + 1) := by
          have hj : j + 1 - 1 = j := by omega
          rw [hj, runlen, hlen]
        rw [hstep]
        have hprev' : ∀ j', j' < j + 1 → runlen l j' < num := by
          intro j' hj'
          by_cases he : j' = j
          · rw [he, ← hlen]
            omega
          · exact hprev j' (by omega)
        have := ih (j + 1) (runlen l (j + 1)) (by omega) rfl hprev' (by omega)
        rw [this]
        constructor
        · rintro (⟨i, hi1, hi2, hi3⟩ | h)
          · exact Or.inl ⟨i, by omega, hi2, hi3⟩
          · exact Or.inr h
        · rintro (⟨i, hi1, hi2, hi3⟩ | h)
          · by_cases he : i = j
            · rw [he, ← hlen] at hi3
              omega
            · exact Or.inl ⟨i, by omega, hi2, hi3⟩
          · exact Or.inr h
    · rw [if_neg hc]
      have hj : j = limit := by omega
      simp only
      constructor
      · intro hne
        have hlen2 : 2 ≤ length := by
          show 2 ≤ length
          by_contra hc2
          have : length = 1 := by omega
          rw [this] at hne
          simp at hne
        exact Or.inr (by rw [← hj, ← hlen]; omega)
      · intro h
        have hlen2 : 2 ≤ length := by
          rcases h with ⟨i, hi1, hi2, hi3⟩ | h
          · have : i = j := by omega
            rw [this, ← hlen] at hi3
            omega
          · rw [← hj, ← hlen] at h
            omega
        show j + 1 - length ≠ j + 1 - 1
        omega

/-- C9 (amended). For a humongous object spanning `num` regions whose start
region sits at position `indexOf hr` of the compaction-point region list:
with `num = 1` it is forwarded iff the first list entry is another region;
with `num >= 2` it is forwarded iff a contiguous run (by heap region index)
of `num` list entries exists ending at or before the object's position, or
the entry just before the object's position is heap-contiguous with it (run
of length at least 2 ending at the object, in which case the relocated
object overlaps its prior location, as the code comment at
g1FullGCCompactionPoint.cpp lines 183-184 acknowledges). -/
theorem c9_humongous_forward_characterization (l : List Nat) (hr num : Nat) :
    (num = 1 →
      (forward_humongous_forwarded l hr num = true ↔ l.getD 0 0 ≠ hr)) ∧
    (2 ≤ num →
      (forward_humongous_forwarded l hr num = true ↔
        (∃ i, i ≤ l.indexOf hr ∧ num ≤ runlen l i)
          ∨ 2 ≤ runlen l (l.indexOf hr))) := by
  constructor
  · intro h1
    subst h1
    rw [forward_humongous_forwarded, find_contiguous_before, if_pos rfl]
    by_cases h : l.getD 0 0 = hr
    · rw [if_pos h]
      constructor
      · intro hf
        exact absurd hf (by decide)
      · intro hne
        exact absurd h hne
    · rw [if_neg h]
      constructor
      · intro _
        exact h
      · intro _
        decide
  · intro h2
    have hne1 : num ≠ 1 := by omega
    have hchar := fcbGo_forwarded l num (l.indexOf hr) h2
      (l.indexOf hr + 1) 0 1 (by omega) rfl (by omega) (by omega)
    rw [forward_humongous_forwarded, find_contiguous_before, if_neg hne1]
    rw [bne_iff_ne]
    rw [hchar]
    constructor
    · rintro (⟨i, _hi0, hi1, hi2⟩ | h)
      · exact Or.inl ⟨i, hi1, hi2⟩
      · exact Or.inr h
    · rintro (⟨i, hi1, hi2⟩ | h)
      · exact Or.inl ⟨i, by omega, hi1, hi2⟩
      · exact Or.inr h

/-- Counterexample to C9 as stated: in the compaction-point list holding
regions 10, 11 and the humongous start region 12 (spanning regions 12-14,
`num = 3`), only two free regions lie strictly before the object, yet the
code forwards it (to region 10, overlapping its prior location). -/
theorem c9_humongous_forward_counterexample :
    forward_humongous_forwarded [10, 11, 12] 12 3 = true ∧
    ¬hasRunStrictlyBefore [10, 11, 12] ([10, 11, 12].indexOf 12) 3 := by
  constructor
  · decide
  · rintro ⟨i, hi, _⟩
    have hidx : [10, 11, 12].indexOf 12 = 2 := by decide
    rw [hidx] at hi
    omega

/-- Witness for the amended C9: the characterization applied at the
counterexample list with `num = 3`, and at a two-entry list with
`num = 1`. -/
theorem c9_humongous_forward_characterization_witness :
    (forward_humongous_forwarded [10, 11, 12] 12 3 = true ↔
      (∃ i, i ≤ [10, 11, 12].indexOf 12 ∧ 3 ≤ runlen [10, 11, 12] i)
        ∨ 2 ≤ runlen [10, 11, 12] ([10, 11, 12].indexOf 12)) ∧
    (forward_humongous_forwarded [9, 12] 12 1 = true ↔
      [9, 12].getD 0 0 ≠ 12) :=
  ⟨(c9_humongous_forward_characterization [10, 11, 12] 12 3).2 (by decide),
   (c9_humongous_forward_characterization [9, 12] 12 1).1 rfl⟩
